import Mathlib

/-!
Verification of the SQL import tool (`import_db.py`).

The script's non-trivial part is `execute_sql_file`, whose first half splits a
list of raw text lines into SQL statements and whose second half executes the
statements one by one, continuing past per-statement failures.  `main` opens a
connection and closes it in a `finally` block.

We embed text as `List Char` (a Python `str` is a sequence of characters) and
lines as `List (List Char)` (the result of `readlines`, each line then
`strip`ped by the code itself, so trailing newlines are irrelevant).
-/

set_option autoImplicit false

namespace ImportDb

/-- ASCII whitespace as recognised by Python `str.strip()` on ASCII input:
space, tab, newline, carriage return, vertical tab, form feed. -/
def isWS (c : Char) : Bool :=
  c = ' ' || c = '\t' || c = '\n' || c = '\r' || c = '\x0b' || c = '\x0c'

/-- Remove leading whitespace (left part of Python `str.strip()`). -/
def lstrip (s : List Char) : List Char := s.dropWhile isWS

/-- Remove trailing whitespace (right part of Python `str.strip()`). -/
def rstrip (s : List Char) : List Char := (s.reverse.dropWhile isWS).reverse

/-- Python `str.strip()`: remove leading and trailing whitespace. -/
def strip (s : List Char) : List Char := rstrip (lstrip s)

/-- Python `line.startswith('#')` on the stripped line. -/
def startsHash : List Char → Bool
  | '#' :: _ => true
  | _ => false

/-- Python `line.startswith('--')` on the stripped line. -/
def startsDashDash : List Char → Bool
  | '-' :: '-' :: _ => true
  | _ => false

/-- Python `line.endswith(';')` on the stripped line. -/
def endsSemi (line : List Char) : Bool :=
  match line.getLast? with
  | some ';' => true
  | _ => false

/-- The skip test of `import_db.py` line 43:
`if not line or line.startswith('#') or line.startswith('--')`. -/
def isSkip (line : List Char) : Bool :=
  line.isEmpty || startsHash line || startsDashDash line

/-- The two mutable locals of the splitting loop in `execute_sql_file`
(lines 37-38): `current_statement` and `statements`. -/
structure SplitState where
  current : List Char
  stmts : List (List Char)
deriving Repr, DecidableEq

/-- One iteration of the loop `for line in lines` (lines 40-51 of
`import_db.py`): strip the line, skip blanks and comments, otherwise append
`" " + line` to the accumulator; a line ending in `;` completes a statement. -/
def processLine (st : SplitState) (rawLine : List Char) : SplitState :=
  let line := strip rawLine
  if isSkip line then st
  else
    let current := st.current ++ ' ' :: line
    if endsSemi line then { current := [], stmts := st.stmts ++ [strip current] }
    else { current := current, stmts := st.stmts }

/-- Lines 53-55 of `import_db.py`: after the loop, a non-whitespace
accumulator is appended as a final statement. -/
def finishSplit (st : SplitState) : List (List Char) :=
  if strip st.current = [] then st.stmts else st.stmts ++ [strip st.current]

/-- The statement splitter of `execute_sql_file` (lines 37-55): fold the loop
body over the input lines starting from empty accumulator and empty output,
then flush the trailing accumulator. -/
def splitStatements (lines : List (List Char)) : List (List Char) :=
  finishSplit (lines.foldl processLine { current := [], stmts := [] })

/-- Recursive restatement of the splitting loop, used to reason about
`splitStatements` by structural induction; `acc` is `current_statement`. -/
def splitLines : List (List Char) → List Char → List (List Char)
  | [], acc => if strip acc = [] then [] else [strip acc]
  | l :: ls, acc =>
    let line := strip l
    if isSkip line then splitLines ls acc
    else
      let acc' := acc ++ ' ' :: line
      if endsSemi line then strip acc' :: splitLines ls [] else splitLines ls acc'

/-- The kept lines of an input: the stripped lines that survive the skip test
of line 43 (non-empty, not starting with `#` or `--`). -/
def keptLines (lines : List (List Char)) : List (List Char) :=
  (lines.map strip).filter (fun s => !isSkip s)

/-- Specification-level grouping: partition a list of kept lines into the
contiguous runs the splitter merges into single statements, each run closed by
its first line ending in `;` (or by the end of input). -/
def groupStmts : List (List Char) → List (List Char) → List (List (List Char))
  | group, [] => if group = [] then [] else [group]
  | group, s :: ks =>
    let group' := group ++ [s]
    if endsSemi s then group' :: groupStmts [] ks else groupStmts group' ks

/-- Join a run of kept lines with single spaces, as the accumulator-and-strip
mechanism of the code does. -/
def joinSp : List (List Char) → List Char
  | [] => []
  | [s] => s
  | s :: g => s ++ ' ' :: joinSp g

/-- The raw accumulator contents after a run `g` of kept lines has been
appended: each line is preceded by one space (line 46 of the code). -/
def accOf (g : List (List Char)) : List Char := (g.map (fun s => ' ' :: s)).flatten

/-- Result of submitting one statement to the database collaborator:
`Success` or `Failure` with the underlying error message. -/
inductive Outcome where
  | success : Outcome
  | failure : List Char → Outcome
deriving Repr, DecidableEq

/-- The outcome of one `cursor.execute` call, abstracting the collaborator as
a function from statement text to an optional error message. -/
def attempt (execOut : List Char → Option (List Char)) (s : List Char) : Outcome :=
  match execOut s with
  | none => Outcome.success
  | some e => Outcome.failure e

/-- The execution loop of `execute_sql_file` (lines 58-71): empty statements
are skipped (`if not statement: continue`); each other statement is attempted
and its failure is caught and suppressed, so the loop always continues. -/
def runStatements (execOut : List Char → Option (List Char)) :
    List (List Char) → List Outcome
  | [] => []
  | s :: rest =>
    if s = [] then runStatements execOut rest
    else attempt execOut s :: runStatements execOut rest

/-- Both ends of a list are non-whitespace (vacuously true when empty). -/
def goodEnds (t : List Char) : Prop :=
  (∀ c, t.head? = some c → isWS c = false) ∧
  (∀ c, t.getLast? = some c → isWS c = false)

/-- The maximal suffix of the kept lines in which no line ends with `;`: the
contributing lines of an unterminated trailing statement. -/
def trailingRun (lines : List (List Char)) : List (List Char) :=
  ((keptLines lines).reverse.takeWhile (fun s => !endsSemi s)).reverse

/-- Three concrete statements used to exercise the runner. -/
def exStmts : List (List Char) := [['a', ';'], ['b', ';'], ['c', ';']]

/-- A concrete collaborator that fails exactly on the second of `exStmts`. -/
def exExec (s : List Char) : Option (List Char) :=
  if s = ['b', ';'] then some ['e', 'r', 'r'] else none

/-- Resource-relevant events of `main` (lines 117-144). -/
inductive Ev where
  | connClose : Ev
  | exitNonzero : Ev
  | raised : List Char → Ev
deriving Repr, DecidableEq

/-- The exception, if any, escaping the body of the `try` in `main`:
`execute_sql_file` may raise (modelled as `Except.error`) or return a Bool;
`verify_data` runs only when the import returned `True` and may raise. -/
def bodyExn (importRes : Except (List Char) Bool)
    (verifyRes : Except (List Char) Unit) : Option (List Char) :=
  match importRes with
  | .error e => some e
  | .ok true =>
    match verifyRes with
    | .ok _ => none
    | .error e => some e
  | .ok false => none

/-- Control flow of `main` (lines 117-144): missing file or failed connection
exit non-zero before the `try`; otherwise the `finally` closes the connection
exactly once, and an exception escaping the body propagates after the close. -/
def mainEvents (fileExists : Bool) (conn : Option Nat)
    (importRes : Except (List Char) Bool)
    (verifyRes : Except (List Char) Unit) : List Ev :=
  if fileExists = false then [Ev.exitNonzero]
  else
    match conn with
    | none => [Ev.exitNonzero]
    | some _ =>
      match bodyExn importRes verifyRes with
      | none => [Ev.connClose]
      | some e => [Ev.connClose, Ev.raised e]

end ImportDb

namespace ImportDb

/-! ### Whitespace-stripping lemmas -/

/-- A list whose head (if any) fails `p` is unchanged by `dropWhile p`. -/
theorem dropWhile_eq_self_of_head {α : Type} (p : α → Bool) :
    ∀ l : List α, (∀ c, l.head? = some c → p c = false) → l.dropWhile p = l
  | [], _ => rfl
  | a :: l, h => by
    have ha : p a = false := h a rfl
    simp [List.dropWhile_cons, ha]

/-- The head of `dropWhile p l`, when present, fails `p`. -/
theorem dropWhile_head?_false {α : Type} (p : α → Bool) :
    ∀ (l : List α) (c : α), (l.dropWhile p).head? = some c → p c = false
  | [], c, h => by simp at h
  | a :: l, c, h => by
    cases hpa : p a with
    | true => exact dropWhile_head?_false p l c (by simpa [List.dropWhile_cons, hpa] using h)
    | false =>
      simp [List.dropWhile_cons, hpa] at h
      subst h
      exact hpa

/-- Decompose a list as its right-stripped part followed by trailing blanks. -/
theorem rstrip_append_blanks (s : List Char) :
    s = rstrip s ++ (s.reverse.takeWhile isWS).reverse := by
  rw [rstrip, ← List.reverse_append, List.takeWhile_append_dropWhile, List.reverse_reverse]

/-- Decompose a list as its leading blanks followed by its left-stripped part. -/
theorem lstrip_blanks_append (s : List Char) :
    s = s.takeWhile isWS ++ lstrip s :=
  (List.takeWhile_append_dropWhile isWS s).symm

/-- When non-empty, the right-stripped part keeps the original head. -/
theorem rstrip_head? (s : List Char) (h : rstrip s ≠ []) :
    (rstrip s).head? = s.head? := by
  conv_rhs => rw [rstrip_append_blanks s]
  cases hr : rstrip s with
  | nil => exact absurd hr h
  | cons a t => simp [hr]

/-- When non-empty, the left-stripped part keeps the original last element. -/
theorem lstrip_getLast? (s : List Char) (h : lstrip s ≠ []) :
    (lstrip s).getLast? = s.getLast? := by
  conv_rhs => rw [lstrip_blanks_append s]
  exact (List.getLast?_append_of_ne_nil _ h).symm

/-- The head of a left-stripped list, when present, is not whitespace. -/
theorem lstrip_head?_false {s : List Char} {c : Char}
    (h : (lstrip s).head? = some c) : isWS c = false :=
  dropWhile_head?_false isWS s c h

/-- The last element of a right-stripped list, when present, is not
whitespace. -/
theorem rstrip_getLast?_false {s : List Char} {c : Char}
    (h : (rstrip s).getLast? = some c) : isWS c = false := by
  rw [rstrip, List.getLast?_reverse] at h
  exact dropWhile_head?_false isWS s.reverse c h

/-- The result of `strip` has non-whitespace ends. -/
theorem strip_goodEnds (s : List Char) : goodEnds (strip s) := by
  constructor
  · intro c h
    have hne : rstrip (lstrip s) ≠ [] := by
      intro hnil
      rw [strip, hnil] at h
      simp at h
    rw [strip, rstrip_head? _ hne] at h
    exact lstrip_head?_false h
  · intro c h
    exact rstrip_getLast?_false h

/-- A list with non-whitespace head is unchanged by `lstrip`. -/
theorem lstrip_eq_self {t : List Char}
    (h : ∀ c, t.head? = some c → isWS c = false) : lstrip t = t :=
  dropWhile_eq_self_of_head isWS t h

/-- A list with non-whitespace last element is unchanged by `rstrip`. -/
theorem rstrip_eq_self {t : List Char}
    (h : ∀ c, t.getLast? = some c → isWS c = false) : rstrip t = t := by
  rw [rstrip, dropWhile_eq_self_of_head isWS t.reverse, t.reverse_reverse]
  intro c hc
  rw [List.head?_reverse] at hc
  exact h c hc

/-- A list with non-whitespace ends is unchanged by `strip`. -/
theorem strip_eq_self {t : List Char} (h : goodEnds t) : strip t = t := by
  rw [strip, lstrip_eq_self h.1, rstrip_eq_self h.2]

/-- `strip` is idempotent. -/
theorem strip_idem (s : List Char) : strip (strip s) = strip s :=
  strip_eq_self (strip_goodEnds s)

/-- Stripping ignores a leading whitespace character. -/
theorem strip_cons_ws {c : Char} (hc : isWS c = true) (t : List Char) :
    strip (c :: t) = strip t := by
  simp [strip, lstrip, List.dropWhile_cons, hc]

/-! ### The accumulator as the space-join of its contributing lines -/

/-- If the left part is non-empty, appending keeps its head. -/
theorem head?_append_left {α : Type} (l t : List α) (h : l ≠ []) :
    (l ++ t).head? = l.head? := by
  cases l with
  | nil => exact absurd rfl h
  | cons a l => rfl

/-- Appending one more line to a run appends one space and the line to the
raw accumulator, as line 46 of the code does. -/
theorem accOf_append_one (g : List (List Char)) (s : List Char) :
    accOf (g ++ [s]) = accOf g ++ ' ' :: s := by
  simp [accOf]

/-- For a non-empty run, the raw accumulator is a single leading space
followed by the space-join of the run. -/
theorem accOf_eq_cons : ∀ g : List (List Char), g ≠ [] → accOf g = ' ' :: joinSp g
  | [], hg => absurd rfl hg
  | [s], _ => by simp [accOf, joinSp]
  | s :: t :: g, _ => by
    have ih := accOf_eq_cons (t :: g) (by simp)
    show (' ' :: s) ++ accOf (t :: g) = ' ' :: joinSp (s :: t :: g)
    rw [ih]
    simp [joinSp]

/-- The space-join of a non-empty run of non-empty lines with clean ends is
non-empty and has clean ends. -/
theorem joinSp_props : ∀ g : List (List Char), g ≠ [] →
    (∀ e ∈ g, e ≠ [] ∧ goodEnds e) → joinSp g ≠ [] ∧ goodEnds (joinSp g)
  | [], hg, _ => absurd rfl hg
  | [s], _, h => by simpa [joinSp] using h s (by simp)
  | s :: t :: g, _, h => by
    obtain ⟨hJne, hJgood⟩ := joinSp_props (t :: g) (by simp)
      (fun e he => h e (List.mem_cons_of_mem s he))
    obtain ⟨hsne, hsgood⟩ := h s (List.mem_cons_self s _)
    have hja : joinSp (s :: t :: g) = s ++ ' ' :: joinSp (t :: g) := by simp [joinSp]
    refine ⟨by simp [hja, hsne], ?_, ?_⟩
    · intro c hc
      rw [hja, head?_append_left s _ hsne] at hc
      exact hsgood.1 c hc
    · intro c hc
      rw [hja, List.getLast?_append_of_ne_nil _ (by simp)] at hc
      rw [show (' ' :: joinSp (t :: g)) = [' '] ++ joinSp (t :: g) from rfl,
        List.getLast?_append_of_ne_nil _ hJne] at hc
      exact hJgood.2 c hc

/-- Stripping the raw accumulator of a run of non-empty clean-ended lines
yields exactly the space-join of the run. -/
theorem strip_accOf : ∀ g : List (List Char),
    (∀ e ∈ g, e ≠ [] ∧ goodEnds e) → strip (accOf g) = joinSp g
  | [], _ => rfl
  | s :: g, h => by
    rw [accOf_eq_cons (s :: g) (by simp), strip_cons_ws (by decide),
      strip_eq_self (joinSp_props (s :: g) (by simp) h).2]

/-! ### The imperative fold equals the recursive splitter -/

/-- Unrolling the statement-splitting loop of `execute_sql_file`: folding the
loop body from any intermediate state and then flushing equals the statements
already emitted followed by the recursive splitter's result. -/
theorem finishSplit_foldl : ∀ (lines : List (List Char)) (acc : List Char)
    (stmts : List (List Char)),
    finishSplit (lines.foldl processLine { current := acc, stmts := stmts }) =
      stmts ++ splitLines lines acc
  | [], acc, stmts => by
    simp only [List.foldl_nil, finishSplit, splitLines]
    split <;> simp
  | l :: ls, acc, stmts => by
    rw [List.foldl_cons]
    cases hskip : isSkip (strip l) with
    | true =>
      have hp : processLine ⟨acc, stmts⟩ l = ⟨acc, stmts⟩ := by
        simp [processLine, hskip]
      rw [hp, finishSplit_foldl ls acc stmts]
      simp [splitLines, hskip]
    | false =>
      cases hsemi : endsSemi (strip l) with
      | true =>
        have hp : processLine ⟨acc, stmts⟩ l =
            ⟨[], stmts ++ [strip (acc ++ ' ' :: strip l)]⟩ := by
          simp [processLine, hskip, hsemi]
        rw [hp, finishSplit_foldl ls [] _]
        simp [splitLines, hskip, hsemi]
      | false =>
        have hp : processLine ⟨acc, stmts⟩ l =
            ⟨acc ++ ' ' :: strip l, stmts⟩ := by
          simp [processLine, hskip, hsemi]
        rw [hp, finishSplit_foldl ls _ stmts]
        simp [splitLines, hskip, hsemi]

/-- The splitter of `execute_sql_file` equals its recursive restatement. -/
theorem splitStatements_eq_splitLines (lines : List (List Char)) :
    splitStatements lines = splitLines lines [] := by
  simpa using finishSplit_foldl lines [] []

/-! ### Kept lines and grouping -/

/-- Unfolding `keptLines` over a leading line. -/
theorem keptLines_cons (l : List Char) (ls : List (List Char)) :
    keptLines (l :: ls) =
      if isSkip (strip l) then keptLines ls else strip l :: keptLines ls := by
  simp only [keptLines, List.map_cons, List.filter_cons]
  cases h : isSkip (strip l) <;> simp [h]

/-- `keptLines` distributes over concatenation of inputs. -/
theorem keptLines_append (a b : List (List Char)) :
    keptLines (a ++ b) = keptLines a ++ keptLines b := by
  simp [keptLines]

/-- Every kept line is non-empty and has non-whitespace ends. -/
theorem keptLines_mem (lines : List (List Char)) (s : List Char)
    (h : s ∈ keptLines lines) : s ≠ [] ∧ goodEnds s := by
  simp only [keptLines, List.mem_filter, List.mem_map] at h
  obtain ⟨⟨l, _, rfl⟩, hkeep⟩ := h
  refine ⟨?_, strip_goodEnds l⟩
  intro hnil
  rw [hnil] at hkeep
  simp [isSkip] at hkeep

/-- The recursive splitter, started from the accumulator of a partial run of
non-empty clean-ended lines, produces the space-joins of the groups that
`groupStmts` forms from that partial run and the kept lines of the input. -/
theorem splitLines_eq_groups : ∀ (lines : List (List Char)) (group : List (List Char)),
    (∀ e ∈ group, e ≠ [] ∧ goodEnds e) →
    splitLines lines (accOf group) = (groupStmts group (keptLines lines)).map joinSp
  | [], group, h => by
    simp only [splitLines, keptLines, List.map_nil, List.filter_nil, groupStmts]
    cases hg : decide (group = []) with
    | true =>
      have hg' : group = [] := of_decide_eq_true hg
      subst hg'
      simp [accOf, strip, lstrip, rstrip]
    | false =>
      have hg' : group ≠ [] := of_decide_eq_false hg
      rw [strip_accOf group h]
      simp [hg', (joinSp_props group hg' h).1]
  | l :: ls, group, h => by
    rw [keptLines_cons]
    cases hskip : isSkip (strip l) with
    | true =>
      simp only [splitLines, hskip, if_true]
      exact splitLines_eq_groups ls group h
    | false =>
      have hlne : strip l ≠ [] := by
        intro hnil
        rw [hnil] at hskip
        simp [isSkip] at hskip
      have hext : ∀ e ∈ group ++ [strip l], e ≠ [] ∧ goodEnds e := by
        intro e he
        rcases List.mem_append.mp he with he | he
        · exact h e he
        · rw [List.mem_singleton.mp he]
          exact ⟨hlne, strip_goodEnds l⟩
      cases hsemi : endsSemi (strip l) with
      | true =>
        simp only [splitLines, hskip, hsemi, if_false, if_true, Bool.false_eq_true,
          groupStmts, List.map_cons]
        rw [← accOf_append_one, strip_accOf _ hext,
          show ([] : List Char) = accOf [] from rfl,
          splitLines_eq_groups ls [] (by simp)]
      | false =>
        simp only [splitLines, hskip, hsemi, if_false, Bool.false_eq_true, groupStmts]
        rw [← accOf_append_one, splitLines_eq_groups ls (group ++ [strip l]) hext]

/-- The splitter's output is the space-join of the groups of kept lines. -/
theorem splitStatements_eq_groups (lines : List (List Char)) :
    splitStatements lines = (groupStmts [] (keptLines lines)).map joinSp := by
  rw [splitStatements_eq_splitLines,
    show ([] : List Char) = accOf [] from rfl,
    splitLines_eq_groups lines [] (by simp)]

/-- Flattening the groups recovers the partial run followed by the kept
lines: the grouping is a partition preserving order and content. -/
theorem groupStmts_flatten : ∀ (ks group : List (List Char)),
    (groupStmts group ks).flatten = group ++ ks
  | [], group => by
    simp only [groupStmts]
    cases hg : decide (group = []) with
    | true =>
      have hg' : group = [] := of_decide_eq_true hg
      subst hg'
      simp
    | false =>
      have hg' : group ≠ [] := of_decide_eq_false hg
      simp [hg']
  | s :: ks, group => by
    simp only [groupStmts]
    cases hsemi : endsSemi s with
    | true => simp [groupStmts_flatten ks []]
    | false => simp [groupStmts_flatten ks (group ++ [s])]

/-- Every group produced by `groupStmts` is non-empty. -/
theorem groupStmts_ne_nil : ∀ (ks group g : List (List Char)),
    g ∈ groupStmts group ks → g ≠ []
  | [], group, g, hg => by
    simp only [groupStmts] at hg
    cases hgr : decide (group = []) with
    | true =>
      have hg' : group = [] := of_decide_eq_true hgr
      subst hg'
      simp at hg
    | false =>
      have hg' : group ≠ [] := of_decide_eq_false hgr
      rw [if_neg hg'] at hg
      rw [List.mem_singleton.mp hg]
      exact hg'
  | s :: ks, group, g, hg => by
    simp only [groupStmts] at hg
    cases hsemi : endsSemi s with
    | true =>
      rw [hsemi, if_pos rfl] at hg
      rcases List.mem_cons.mp hg with hg | hg
      · subst hg
        simp
      · exact groupStmts_ne_nil ks [] g hg
    | false =>
      rw [hsemi] at hg
      simp only [Bool.false_eq_true, if_false] at hg
      exact groupStmts_ne_nil ks (group ++ [s]) g hg

/-- One-step unfolding of `groupStmts` on an exhausted input. -/
theorem groupStmts_nil (group : List (List Char)) :
    groupStmts group [] = if group = [] then [] else [group] := rfl

/-- One-step unfolding of `groupStmts` on one more kept line. -/
theorem groupStmts_cons (group : List (List Char)) (s : List Char)
    (ks : List (List Char)) :
    groupStmts group (s :: ks) =
      if endsSemi s then (group ++ [s]) :: groupStmts [] ks
      else groupStmts (group ++ [s]) ks := rfl

/-- When every kept line ends in `;`, every group is a singleton. -/
theorem groupStmts_all_semi : ∀ ks : List (List Char),
    (∀ s ∈ ks, endsSemi s = true) →
    groupStmts [] ks = ks.map (fun s => [s])
  | [], _ => rfl
  | s :: ks, h => by
    have hs : endsSemi s = true := h s (List.mem_cons_self s ks)
    simp only [groupStmts, hs, if_true, List.nil_append, List.map_cons]
    rw [groupStmts_all_semi ks (fun t ht => h t (List.mem_cons_of_mem s ht))]

/-- When no kept line ends in `;`, all of them merge into one final group. -/
theorem groupStmts_no_semi : ∀ (ks group : List (List Char)), ks ≠ [] →
    (∀ s ∈ ks, endsSemi s = false) →
    groupStmts group ks = [group ++ ks]
  | [], _, hne, _ => absurd rfl hne
  | [s], group, _, h => by
    have hs : endsSemi s = false := h s (List.mem_singleton_self s)
    simp [groupStmts, hs]
  | s :: t :: ks, group, _, h => by
    have hs : endsSemi s = false := h s (List.mem_cons_self s _)
    rw [groupStmts_cons, if_neg (by simp [hs]),
      groupStmts_no_semi (t :: ks) (group ++ [s]) (by simp)
        (fun u hu => h u (List.mem_cons_of_mem s hu))]
    simp

/-- A `;`-terminated kept line closes its group, so grouping splits at it. -/
theorem groupStmts_append_semi {s : List Char} (hs : endsSemi s = true) :
    ∀ (xs : List (List Char)) (group ys : List (List Char)),
    groupStmts group (xs ++ s :: ys) =
      groupStmts group (xs ++ [s]) ++ groupStmts [] ys
  | [], group, ys => by
    show groupStmts group (s :: ys) = groupStmts group [s] ++ groupStmts [] ys
    rw [groupStmts_cons, if_pos hs, groupStmts_cons, if_pos hs, groupStmts_nil]
    simp
  | x :: xs, group, ys => by
    show groupStmts group (x :: (xs ++ s :: ys)) =
      groupStmts group (x :: (xs ++ [s])) ++ groupStmts [] ys
    rw [groupStmts_cons, groupStmts_cons]
    cases hx : endsSemi x with
    | true =>
      rw [if_pos rfl, if_pos rfl, groupStmts_append_semi hs xs [] ys]
      simp
    | false =>
      rw [if_neg (by simp), if_neg (by simp)]
      exact groupStmts_append_semi hs xs (group ++ [x]) ys

example :
    splitStatements
      ["CREATE TABLE t (id INT);".toList, "-- comment".toList,
       "INSERT INTO t VALUES (1);".toList, "INSERT INTO t VALUES (2)".toList] =
      ["CREATE TABLE t (id INT);".toList, "INSERT INTO t VALUES (1);".toList,
       "INSERT INTO t VALUES (2)".toList] := by decide

example :
    splitStatements ["CREATE TABLE t (".toList, "  id INT".toList, ");".toList] =
      ["CREATE TABLE t ( id INT );".toList] := by decide

example : splitStatements ["# c".toList, "   ".toList, "-- x".toList] = [] := by decide

/-- One-step unfolding of the runner loop on one more statement. -/
theorem runStatements_cons (execOut : List Char → Option (List Char))
    (s : List Char) (rest : List (List Char)) :
    runStatements execOut (s :: rest) =
      if s = [] then runStatements execOut rest
      else attempt execOut s :: runStatements execOut rest := rfl

/-! ### The claims -/

/-- C1: when every input line, after stripping, is non-empty, is not a `#` or
`--` comment, and ends with `;`, the splitter emits exactly one statement per
input line (namely the stripped line), in source order. -/
theorem splitter_one_statement_per_line (lines : List (List Char))
    (h : ∀ l ∈ lines, isSkip (strip l) = false ∧ endsSemi (strip l) = true) :
    splitStatements lines = lines.map strip ∧
    (splitStatements lines).length = lines.length := by
  have hkept : keptLines lines = lines.map strip := by
    rw [keptLines, List.filter_eq_self.mpr]
    intro s hs
    obtain ⟨l, hl, rfl⟩ := List.mem_map.mp hs
    simp [(h l hl).1]
  have hsemi : ∀ s ∈ lines.map strip, endsSemi s = true := by
    intro s hs
    obtain ⟨l, hl, rfl⟩ := List.mem_map.mp hs
    exact (h l hl).2
  have heq := splitStatements_eq_groups lines
  rw [hkept, groupStmts_all_semi _ hsemi, List.map_map] at heq
  have hid : joinSp ∘ (fun s : List Char => [s]) = id := by
    funext s
    simp [joinSp]
  rw [hid, List.map_id] at heq
  exact ⟨heq, by rw [heq, List.length_map]⟩

/-- Witness for C1 on a concrete two-line script. -/
theorem splitter_one_statement_per_line_witness :
    splitStatements [['a', ';'], ['b', ';']] = [['a', ';'], ['b', ';']] :=
  ((splitter_one_statement_per_line [['a', ';'], ['b', ';']] (by decide)).1).trans
    (by decide)

/-- C2: when the kept lines end in a non-empty run of lines none of which
ends with `;`, that accumulated trailing text is still emitted, as the final
statement; an unterminated trailing statement is never dropped. -/
theorem splitter_emits_trailing (lines : List (List Char))
    (h : trailingRun lines ≠ []) :
    splitStatements lines ≠ [] ∧
    (splitStatements lines).getLast? = some (joinSp (trailingRun lines)) := by
  have htr : ∀ s ∈ trailingRun lines, endsSemi s = false := by
    intro s hs
    rw [trailingRun, List.mem_reverse] at hs
    have := List.mem_takeWhile_imp hs
    simpa using this
  have hdecomp : keptLines lines =
      ((keptLines lines).reverse.dropWhile (fun s => !endsSemi s)).reverse ++
        trailingRun lines := by
    rw [trailingRun, ← List.reverse_append, List.takeWhile_append_dropWhile,
      List.reverse_reverse]
  rw [splitStatements_eq_groups, hdecomp]
  cases hdw : (keptLines lines).reverse.dropWhile (fun s => !endsSemi s) with
  | nil =>
    simp only [List.reverse_nil, List.nil_append]
    rw [groupStmts_no_semi (trailingRun lines) [] h htr]
    simp
  | cons c cs =>
    have hc : endsSemi c = true := by
      have := dropWhile_head?_false (fun s => !endsSemi s)
        (keptLines lines).reverse c (by rw [hdw]; rfl)
      simpa using this
    rw [show (c :: cs).reverse ++ trailingRun lines =
      cs.reverse ++ c :: trailingRun lines by simp,
      groupStmts_append_semi hc cs.reverse [] (trailingRun lines),
      groupStmts_no_semi (trailingRun lines) [] h htr]
    refine ⟨by simp, ?_⟩
    rw [List.map_append]
    simp

/-- Witness for C2 on a one-line script with no terminating semicolon. -/
theorem splitter_emits_trailing_witness :
    trailingRun [['a', 'b']] ≠ [] ∧
    (splitStatements [['a', 'b']]).getLast? = some (joinSp (trailingRun [['a', 'b']])) :=
  ⟨by decide, (splitter_emits_trailing [['a', 'b']] (by decide)).2⟩

/-- C3: a line that strips to empty or to a `#`/`--` comment contributes
nothing wherever it occurs: deleting it from the input leaves the emitted
statements unchanged, so lines around a mid-statement comment are still
concatenated into the single statement they would otherwise form. -/
theorem comment_line_invisible (pre post : List (List Char)) (l : List Char)
    (h : isSkip (strip l) = true) :
    splitStatements (pre ++ l :: post) = splitStatements (pre ++ post) := by
  have hl : keptLines [l] = [] := by
    rw [keptLines_cons, if_pos h]
    rfl
  rw [splitStatements_eq_groups, splitStatements_eq_groups,
    show pre ++ l :: post = pre ++ [l] ++ post by simp,
    keptLines_append, keptLines_append, keptLines_append, hl, List.append_nil]

/-- Witness for C3: a `--` comment between the two halves of one statement is
dropped and the halves are joined into a single statement. -/
theorem comment_line_invisible_witness :
    splitStatements [['a', 'b'], ['-', '-', 'c'], ['c', 'd', ';']] =
      [['a', 'b', ' ', 'c', 'd', ';']] :=
  (comment_line_invisible [['a', 'b']] [['c', 'd', ';']] ['-', '-', 'c']
    (by decide)).trans (by decide)

/-- C4: an input consisting only of blank and comment lines produces no
statements at all. -/
theorem only_comments_no_statements (lines : List (List Char))
    (h : ∀ l ∈ lines, isSkip (strip l) = true) :
    splitStatements lines = [] := by
  have hkept : keptLines lines = [] := by
    rw [keptLines, List.filter_eq_nil_iff]
    intro s hs
    obtain ⟨l, hl, rfl⟩ := List.mem_map.mp hs
    simp [h l hl]
  rw [splitStatements_eq_groups, hkept]
  rfl

/-- Witness for C4 on a script of one `#` comment, one blank line and one
`--` comment. -/
theorem only_comments_no_statements_witness :
    splitStatements [['#', 'a'], [' ', ' '], ['-', '-', 'b']] = [] :=
  only_comments_no_statements [['#', 'a'], [' ', ' '], ['-', '-', 'b']] (by decide)

/-- C5: the concrete scenario of the specification: three statements are
emitted, the comment is dropped, and the unterminated final statement is
still emitted. -/
theorem concrete_scenario_split :
    splitStatements
      ["CREATE TABLE t (id INT);".toList, "-- comment".toList,
       "INSERT INTO t VALUES (1);".toList, "INSERT INTO t VALUES (2)".toList] =
      ["CREATE TABLE t (id INT);".toList, "INSERT INTO t VALUES (1);".toList,
       "INSERT INTO t VALUES (2)".toList] := by decide

/-- C6: every emitted statement is non-empty even after trimming: the output
never contains the empty string or a whitespace-only string. -/
theorem statements_never_blank (lines : List (List Char)) (s : List Char)
    (h : s ∈ splitStatements lines) : strip s ≠ [] ∧ s ≠ [] := by
  rw [splitStatements_eq_groups] at h
  obtain ⟨g, hg, rfl⟩ := List.mem_map.mp h
  have hgne : g ≠ [] := groupStmts_ne_nil _ _ _ hg
  have hmem : ∀ e ∈ g, e ≠ [] ∧ goodEnds e := by
    intro e he
    apply keptLines_mem lines
    have he' : e ∈ (groupStmts [] (keptLines lines)).flatten :=
      List.mem_flatten.mpr ⟨g, hg, he⟩
    rwa [groupStmts_flatten, List.nil_append] at he'
  obtain ⟨hne, hgood⟩ := joinSp_props g hgne hmem
  exact ⟨by rwa [strip_eq_self hgood], hne⟩

/-- Witness for C6 on the single statement emitted from one line. -/
theorem statements_never_blank_witness :
    strip ['a', ';'] ≠ [] ∧ ['a', ';'] ≠ [] :=
  statements_never_blank [['a', ';']] ['a', ';'] (by decide)

/-- C7: the splitter is deterministic: it is a pure function of the input
lines, computed by folding from the explicitly empty initial state, so two
runs on the same raw script give identical statement sequences. -/
theorem splitter_deterministic (lines : List (List Char)) :
    splitStatements lines = splitStatements lines ∧
    splitStatements lines =
      finishSplit (lines.foldl processLine { current := [], stmts := [] }) :=
  ⟨rfl, rfl⟩

/-- C8: the runner attempts every (non-empty) statement in order, one outcome
per statement, regardless of earlier failures. -/
theorem runner_attempts_every_statement (execOut : List Char → Option (List Char))
    (stmts : List (List Char)) (h : ∀ s ∈ stmts, s ≠ []) :
    runStatements execOut stmts = stmts.map (attempt execOut) ∧
    (runStatements execOut stmts).length = stmts.length := by
  have hmap : runStatements execOut stmts = stmts.map (attempt execOut) := by
    induction stmts with
    | nil => rfl
    | cons s rest ih =>
      rw [runStatements_cons, if_neg (h s (List.mem_cons_self s rest)),
        List.map_cons, ih (fun t ht => h t (List.mem_cons_of_mem s ht))]
  exact ⟨hmap, by rw [hmap, List.length_map]⟩

/-- Witness for C8: with the second of three statements failing, the runner
still attempts all three and records `[Success, Failure, Success]`. -/
theorem runner_attempts_every_statement_witness :
    runStatements exExec exStmts =
      [Outcome.success, Outcome.failure ['e', 'r', 'r'], Outcome.success] :=
  ((runner_attempts_every_statement exExec exStmts (by decide)).1).trans (by decide)

/-- C9: once the file exists and a connection is established, `main` closes
the connection exactly once on every exit path (successful import, failed
import, or an exception escaping the import or verification phase). -/
theorem connection_closed_exactly_once (fileExists : Bool) (conn : Option Nat)
    (importRes : Except (List Char) Bool) (verifyRes : Except (List Char) Unit)
    (hf : fileExists = true) (hc : conn.isSome = true) :
    (mainEvents fileExists conn importRes verifyRes).count Ev.connClose = 1 := by
  subst hf
  obtain ⟨n, rfl⟩ := Option.isSome_iff_exists.mp hc
  rw [mainEvents]
  simp only [Bool.true_eq_false, if_false]
  cases hbody : bodyExn importRes verifyRes with
  | none => decide
  | some e => simp [List.count_cons]

/-- Witness for C9 with an exception escaping the verification phase. -/
theorem connection_closed_exactly_once_witness :
    (mainEvents true (some 0) (Except.ok true) (Except.error ['x'])).count
      Ev.connClose = 1 :=
  connection_closed_exactly_once true (some 0) (Except.ok true)
    (Except.error ['x']) rfl rfl

/-- C10: the splitter's output is a content-preserving partition of the kept
lines: the kept lines split into contiguous, non-empty, order-preserving
groups whose concatenation is exactly the kept lines, and each emitted
statement is the corresponding group joined by single spaces. -/
theorem splitter_partitions_kept_lines (lines : List (List Char)) :
    splitStatements lines = (groupStmts [] (keptLines lines)).map joinSp ∧
    (groupStmts [] (keptLines lines)).flatten = keptLines lines ∧
    ∀ g ∈ groupStmts [] (keptLines lines), g ≠ [] :=
  ⟨splitStatements_eq_groups lines,
    by rw [groupStmts_flatten, List.nil_append],
    fun g hg => groupStmts_ne_nil _ _ _ hg⟩

/-- Witness for C10: two kept lines form one group joined by a space. -/
theorem splitter_partitions_kept_lines_witness :
    splitStatements [['a'], ['b', ';']] = [['a', ' ', 'b', ';']] :=
  (splitter_partitions_kept_lines [['a'], ['b', ';']]).1.trans (by decide)

end ImportDb
